import Mathlib

/-!
Verification development for the Spark-ALS movie-recommendation notebook.

The notebook trains an ALS factorization on a ratings table, exports the
user and item factor tables to CSV (vector rendered as JSON text), reads
them back with pandas, computes a cosine-similarity column against one
target user's embedding, filters out movies the user already rated,
sorts by similarity descending, takes the top 10, and inner-joins the
result with the movie metadata table.

Dataframes are embedded as lists of typed rows; each definition mirrors
one notebook cell (noted in its doc comment).  The similarity values in
the pipeline are kept generic over a linearly ordered type, so that the
relational facts (filter, sort, take, merge) hold for any similarity
assignment; the cosine formula itself is treated over the reals.
-/

namespace RecSys

/-- A row of a ratings CSV file: (userId, movieId, rating, timestamp),
per the schema cell of the notebook. -/
structure Rating where
  userId : Int
  movieId : Int
  rating : ℚ
  timestamp : Int
deriving Repr, DecidableEq

/-- A row of an embedding table after the JSON decode cell:
an identifier and a feature vector. -/
structure EmbRow where
  id : Int
  features : List ℚ
deriving Repr, DecidableEq

/-- A row of the item-embedding table after the cell that assigns the
sim_value column. -/
structure SimRow (α : Type) where
  id : Int
  features : List ℚ
  sim_value : α
deriving Repr, DecidableEq

/-- A row of the movie metadata table movies.csv: (movieId, title, genres). -/
structure Movie where
  movieId : Int
  title : String
  genres : String
deriving Repr, DecidableEq

/-- A row of the final displayed table: columns movieId, title, genres,
sim_value selected after the metadata merge. -/
structure RecRow (α : Type) where
  movieId : Int
  title : String
  genres : String
  sim_value : α
deriving Repr, DecidableEq

/-- Notebook cell: target_user_id = 1. -/
def target_user_id : Int := 1

/-- Cell assigning the similarity column:
df_movie_embedding["sim_value"] = features.map(lambda x: 1 - distance.cosine(user_embedding, x)).
The actual scalar function is a parameter f; the pandas column assignment
is a row-wise map that keeps id and features. -/
def assignSimValue {α : Type} (f : List ℚ → α) (df : List EmbRow) : List (SimRow α) :=
  df.map fun r => ⟨r.id, r.features, f r.features⟩

/-- Cell building the watched set:
watched_ids = set(df_rating[df_rating["userId"] == target_user_id]["movieId"].unique()). -/
def watched_ids (df_rating : List Rating) (uid : Int) : List Int :=
  ((df_rating.filter fun r => decide (r.userId = uid)).map Rating.movieId).dedup

/-- Boolean comparison used to model sort_values(by="sim_value", ascending=False):
row a may precede row b when b's similarity is at most a's. -/
def simDescLe {α : Type} [LinearOrder α] (a b : SimRow α) : Bool :=
  decide (b.sim_value ≤ a.sim_value)

/-- Cell building df_target_movieIds: filter rows whose id is not in the
watched set, sort by sim_value descending, head(10), select [["id", "sim_value"]]. -/
def df_target_movieIds {α : Type} [LinearOrder α] (f : List ℚ → α)
    (df_movie_embedding : List EmbRow) (watched : List Int) : List (Int × α) :=
  ((((assignSimValue f df_movie_embedding).filter fun r =>
      decide (r.id ∉ watched)).mergeSort simDescLe).take 10).map
    fun r => (r.id, r.sim_value)

/-- Final cell: pd.merge(left=df_target_movieIds, right=df_movie,
left_on="id", right_on="movieId") with columns
[["movieId", "title", "genres", "sim_value"]].  An inner join that
preserves the left table's row order: each left row contributes the
metadata rows whose movieId equals its id. -/
def mergeWithMovies {α : Type} (left : List (Int × α)) (df_movie : List Movie) :
    List (RecRow α) :=
  left.flatMap fun l =>
    (df_movie.filter fun m => decide (m.movieId = l.1)).map fun m =>
      ⟨m.movieId, m.title, m.genres, l.2⟩

/-- Cell looking up the target user's embedding:
user_embedding = df_user_embedding[df_user_embedding["id"] == target_user_id].iloc[0, 1].
iloc[0, 1] on an empty selection raises IndexError, modelled as none. -/
def user_embedding (df_user_embedding : List EmbRow) (uid : Int) : Option (List ℚ) :=
  ((df_user_embedding.filter fun r => decide (r.id = uid)).head?).map EmbRow.features

/-! ### The cosine similarity scalar (cell using scipy distance.cosine) -/

noncomputable section

/-- Inner product of two feature vectors (matching zip semantics of the
vector arithmetic used by the similarity computation). -/
def dotProd (u v : List ℝ) : ℝ := (List.zipWith (fun a b => a * b) u v).sum

/-- Euclidean norm of a feature vector. -/
def euclidNorm (u : List ℝ) : ℝ := Real.sqrt (dotProd u u)

/-- scipy.spatial.distance.cosine: one minus the normalized inner
product (the library semantics of the call in the sim_value cell). -/
def cosineDist (u v : List ℝ) : ℝ := 1 - dotProd u v / (euclidNorm u * euclidNorm v)

/-- Cell: sim_value = 1 - distance.cosine(user_embedding, x). -/
def simValueR (u v : List ℝ) : ℝ := 1 - cosineDist u v

end

/-! ### ALS configuration and library-level prediction semantics -/

/-- The configuration surface of the pyspark ALS estimator used by the
training cell. -/
structure ALSParams where
  rank : Nat
  maxIter : Nat
  regParam : ℚ
  userCol : String
  itemCol : String
  ratingCol : String
  coldStartStrategy : String
deriving Repr, DecidableEq

/-- The pyspark ALS defaults for the fields the notebook touches or
relies on (rank defaults to 10, coldStartStrategy to "nan"). -/
def alsDefaults : ALSParams :=
  { rank := 10, maxIter := 10, regParam := 1/10, userCol := "user", itemCol := "item",
    ratingCol := "rating", coldStartStrategy := "nan" }

/-- The estimator as configured by the training cell: ALS(maxIter=5,
regParam=0.01, userCol="userId", itemCol="movieId", ratingCol="rating",
coldStartStrategy="drop"); rank is left at its default. -/
def als : ALSParams :=
  { alsDefaults with
    maxIter := 5
    regParam := 1/100
    userCol := "userId"
    itemCol := "movieId"
    ratingCol := "rating"
    coldStartStrategy := "drop" }

/-- A fitted factorization model: user and item factor tables. -/
structure ALSModel where
  userFactors : List (Int × List ℚ)
  itemFactors : List (Int × List ℚ)
deriving Repr, DecidableEq

/-- Factor lookup for an id; none models an id unseen in training. -/
def lookupFactor (factors : List (Int × List ℚ)) (i : Int) : Option (List ℚ) :=
  (factors.find? fun p => decide (p.1 = i)).map Prod.snd

/-- Inner product of rational factor vectors (the ALS prediction). -/
def dotQ (u v : List ℚ) : ℚ := (List.zipWith (fun a b => a * b) u v).sum

/-- Library semantics of ALSModel.transform under a cold-start strategy:
with "drop" the rows whose user or item has no factor are omitted;
otherwise they are kept with a missing (NaN) prediction. -/
def transform (strategy : String) (m : ALSModel) (rows : List (Int × Int)) :
    List (Int × Int × Option ℚ) :=
  if strategy = "drop" then
    rows.filterMap fun p =>
      match lookupFactor m.userFactors p.1, lookupFactor m.itemFactors p.2 with
      | some fu, some fi => some (p.1, p.2, some (dotQ fu fi))
      | _, _ => none
  else
    rows.map fun p =>
      (p.1, p.2,
        match lookupFactor m.userFactors p.1, lookupFactor m.itemFactors p.2 with
        | some fu, some fi => some (dotQ fu fi)
        | _, _ => none)

/-- The library guarantee on a fitted model: every factor vector has
the model rank as its length. -/
def factorsWellFormed (m : ALSModel) (r : Nat) : Prop :=
  (∀ p ∈ m.userFactors, p.2.length = r) ∧ (∀ p ∈ m.itemFactors, p.2.length = r)

instance (m : ALSModel) (r : Nat) : Decidable (factorsWellFormed m r) := by
  unfold factorsWellFormed
  infer_instance

/-! ### The embedding export format: CSV lines with JSON-rendered vectors
(the to_csv cells and the read_csv / json.loads cells) -/

/-- The ten decimal digit characters. -/
def digitChars : List Char := ['0', '1', '2', '3', '4', '5', '6', '7', '8', '9']

/-- Character for a decimal digit value. -/
def digitCharN (d : Nat) : Char := digitChars.getD d '9'

/-- Test for a decimal digit character. -/
def isDigitCh (c : Char) : Bool := decide (48 ≤ c.toNat ∧ c.toNat ≤ 57)

/-- Numeric value of a digit character. -/
def digitVal (c : Char) : Nat := c.toNat - 48

/-- Value of a big-endian digit list. -/
def digitsVal (ds : List Nat) : Nat := ds.foldl (fun a d => 10 * a + d) 0

/-- Decimal rendering of a natural number, most significant digit first. -/
def natChars (n : Nat) : List Char :=
  if n = 0 then ['0'] else (Nat.digits 10 n).reverse.map digitCharN
/-- An exact decimal scalar: sign, integer part, fraction digit values.
This models the decimal text a float repr produces (e.g. -12.305 is
⟨true, 12, [3, 0, 5]⟩). -/

structure DecNum where
  neg : Bool
  intPart : Nat
  frac : List Nat
deriving Repr, DecidableEq

/-- Well-formed rendered scalar: at least one fraction digit (a float
repr always prints one) and fraction digit values below ten. -/

def DecNum.wf (d : DecNum) : Prop := d.frac ≠ [] ∧ ∀ k ∈ d.frac, k < 10

instance (d : DecNum) : Decidable d.wf := by
  unfold DecNum.wf
  infer_instance

/-- Decimal text of a scalar, as Python repr renders a float. -/
def decChars (d : DecNum) : List Char :=
  (if d.neg then ['-'] else []) ++ natChars d.intPart ++ '.' :: d.frac.map digitCharN

/-- Greedy digit-run parse: values of the leading digit characters. -/
def leadDigits (cs : List Char) : List Nat := (cs.takeWhile isDigitCh).map digitVal

/-- Rest after the leading digit run. -/
def afterDigits (cs : List Char) : List Char := cs.dropWhile isDigitCh
/-- Parse a decimal number with given sign flag: digit run, then
optionally a point and a second digit run (the JSON number grammar
restricted to what the writer emits). -/

def parseNumCore (negb : Bool) (cs : List Char) : Option (DecNum × List Char) :=
  if leadDigits cs = [] then none
  else if (afterDigits cs).head? = some '.' then
    (if leadDigits (afterDigits cs).tail = [] then none
     else some (⟨negb, digitsVal (leadDigits cs), leadDigits (afterDigits cs).tail⟩,
       afterDigits (afterDigits cs).tail))
  else some (⟨negb, digitsVal (leadDigits cs), []⟩, afterDigits cs)

/-- Parse an optionally signed decimal number. -/
def parseNum (cs : List Char) : Option (DecNum × List Char) :=
  if cs.head? = some '-' then parseNumCore true cs.tail else parseNumCore false cs
/-- Join rendered elements with the ", " separator of Python str(list)
and json.dumps. -/

def joinSep : List (List Char) → List Char
  | [] => []
  | [x] => x
  | x :: y :: t => x ++ ',' :: ' ' :: joinSep (y :: t)

/-- Text of a vector: "[a, b, c]". -/
def vecChars (v : List DecNum) : List Char :=
  '[' :: (joinSep (v.map decChars) ++ [']'])

/-- Drop leading spaces, as a JSON parser does between tokens. -/
def skipSpaces (cs : List Char) : List Char := cs.dropWhile (fun c => decide (c = ' '))
/-- Parse the comma-separated elements of a non-empty JSON number array,
consuming the closing bracket; fuel bounds the recursion depth. -/

def parseElemsAux : Nat → List Char → Option (List DecNum × List Char)
  | 0, _ => none
  | fuel + 1, cs =>
    match parseNum (skipSpaces cs) with
    | none => none
    | some (d, cs1) =>
      if cs1.head? = some ',' then
        match parseElemsAux fuel cs1.tail with
        | some (ds, cs3) => some (d :: ds, cs3)
        | none => none
      else if cs1.head? = some ']' then some ([d], cs1.tail)
      else none
/-- Parse a JSON array of numbers (the grammar fragment json.loads
exercises on the writer-produced vector texts). -/

def parseVec (cs : List Char) : Option (List DecNum) :=
  if cs.head? = some '[' then
    if (skipSpaces cs.tail).head? = some ']' then
      if skipSpaces (skipSpaces cs.tail).tail = [] then some [] else none
    else
      match parseElemsAux (cs.length + 1) cs.tail with
      | some (ds, rest) => if skipSpaces rest = [] then some ds else none
      | none => none
  else none

/-- The double-quote character used by the CSV quoting convention. -/
def quoteChar : Char := Char.ofNat 34

/-- Decimal text of an integer identifier. -/
def intChars (z : Int) : List Char :=
  if z < 0 then '-' :: natChars z.natAbs else natChars z.natAbs
/-- Minimal CSV quoting as pandas to_csv applies it to a field that is
free of quote and newline characters: wrap in quotes exactly when the
field contains the separator. -/

def csvField (text : List Char) : List Char :=
  if ',' ∈ text then quoteChar :: (text ++ [quoteChar]) else text

/-- One CSV data line: id, separator, features field, newline. -/
def csvRow (z : Int) (text : List Char) : List Char :=
  intChars z ++ ',' :: (csvField text ++ ['\n'])

/-- The header line written by to_csv for the two selected columns. -/
def headerChars : List Char :=
  ['i', 'd', ',', 'f', 'e', 'a', 't', 'u', 'r', 'e', 's', '\n']
/-- The full CSV file text for an embedding table: header then one line
per (id, vector) row, the vector rendered as JSON text. -/

def csvFileChars (table : List (Int × List DecNum)) : List Char :=
  headerChars ++ table.flatMap fun r => csvRow r.1 (vecChars r.2)
/-- Read one CSV field: a quoted field runs to the closing quote,
an unquoted one to the next separator or line end. -/

def parseField (cs : List Char) : List Char × List Char :=
  if cs.head? = some quoteChar then
    (cs.tail.takeWhile fun c => decide (c ≠ quoteChar),
      (cs.tail.dropWhile fun c => decide (c ≠ quoteChar)).tail)
  else
    (cs.takeWhile fun c => decide (c ≠ ',' ∧ c ≠ '\n'),
      cs.dropWhile fun c => decide (c ≠ ',' ∧ c ≠ '\n'))

/-- Parse the integer id at the start of a line. -/
def parseIdNum (cs : List Char) : Option (Int × List Char) :=
  if cs.head? = some '-' then
    (if leadDigits cs.tail = [] then none
     else some (-(digitsVal (leadDigits cs.tail) : Int), afterDigits cs.tail))
  else
    (if leadDigits cs = [] then none
     else some ((digitsVal (leadDigits cs) : Int), afterDigits cs))

/-- Parse one CSV data line: id, separator, field, newline. -/
def parseCsvRow (cs : List Char) : Option ((Int × List Char) × List Char) :=
  match parseIdNum cs with
  | none => none
  | some (z, cs1) =>
    if cs1.head? = some ',' then
      (if (parseField cs1.tail).2.head? = some '\n' then
        some ((z, (parseField cs1.tail).1), (parseField cs1.tail).2.tail)
      else none)
    else none

/-- Parse the data lines of a CSV file; fuel bounds the recursion. -/
def parseCsvRows : Nat → List Char → Option (List (Int × List Char))
  | 0, cs => if cs = [] then some [] else none
  | fuel + 1, cs =>
    if cs = [] then some []
    else
      match parseCsvRow cs with
      | none => none
      | some (r, cs2) =>
        match parseCsvRows fuel cs2 with
        | some rs => some (r :: rs)
        | none => none
/-- Read a whole embedding CSV file: check the header, then parse the
data lines into (id, field text) pairs. -/

def readCsv (cs : List Char) : Option (List (Int × List Char)) :=
  if cs.take headerChars.length = headerChars then
    parseCsvRows cs.length (cs.drop headerChars.length)
  else none
/-- The post-read decode step: map json.loads over the features column;
a parse failure anywhere fails the whole decode. -/

def decodeFeatures : List (Int × List Char) → Option (List (Int × List DecNum))
  | [] => some []
  | r :: rs =>
    match parseVec r.2, decodeFeatures rs with
    | some v, some t => some ((r.1, v) :: t)
    | _, _ => none

/-- Full read-back pipeline: pd.read_csv then json.loads on features. -/
def readEmbeddingCsv (cs : List Char) : Option (List (Int × List DecNum)) :=
  match readCsv cs with
  | some rows => decodeFeatures rows
  | none => none

/-! ### Helper lemmas -/

unseal List.merge List.mergeSort

theorem isDigit_digitCharN (d : Nat) : isDigitCh (digitCharN d) = true := by
  by_cases h : d < 10
  · interval_cases d <;> rfl
  · unfold digitCharN
    rw [List.getD_eq_default]
    · rfl
    · simpa [digitChars] using h

theorem digitVal_digitCharN {d : Nat} (h : d < 10) : digitVal (digitCharN d) = d := by
  interval_cases d <;> rfl

theorem natChars_ne_nil (n : Nat) : natChars n ≠ [] := by
  unfold natChars
  by_cases h : n = 0
  · simp [h]
  · simp [h, Nat.digits_ne_nil_iff_ne_zero, h]

theorem natChars_all_digits (n : Nat) : ∀ c ∈ natChars n, isDigitCh c = true := by
  intro c hc
  unfold natChars at hc
  by_cases h : n = 0
  · rw [if_pos h] at hc
    simp at hc
    subst hc
    rfl
  · rw [if_neg h] at hc
    obtain ⟨d, _, rfl⟩ := List.mem_map.mp hc
    exact isDigit_digitCharN d

theorem digitsVal_eq_ofDigits (L : List Nat) :
    digitsVal L.reverse = Nat.ofDigits 10 L := by
  unfold digitsVal
  rw [List.foldl_reverse]
  induction L with
  | nil => simp [Nat.ofDigits]
  | cons d L ih => rw [List.foldr_cons, ih, Nat.ofDigits_cons]; ring

theorem digitsVal_natChars (n : Nat) :
    digitsVal ((natChars n).map digitVal) = n := by
  unfold natChars
  by_cases h : n = 0
  · simp [h]
    rfl
  · rw [if_neg h, List.map_map, List.map_reverse]
    have hmap : (Nat.digits 10 n).map (digitVal ∘ digitCharN) = Nat.digits 10 n := by
      conv_rhs => rw [← List.map_id (Nat.digits 10 n)]
      exact List.map_congr_left fun d hd =>
        digitVal_digitCharN (Nat.digits_lt_base (by norm_num) hd)
    rw [hmap, digitsVal_eq_ofDigits, Nat.ofDigits_digits]

theorem takeWhile_append_all {p : Char → Bool} {l1 l2 : List Char}
    (h : ∀ c ∈ l1, p c = true) :
    (l1 ++ l2).takeWhile p = l1 ++ l2.takeWhile p := by
  induction l1 with
  | nil => simp
  | cons c t ih =>
    rw [List.cons_append, List.takeWhile_cons_of_pos (h c (List.mem_cons_self c t)),
      ih fun x hx => h x (List.mem_cons_of_mem c hx), List.cons_append]

theorem dropWhile_append_all {p : Char → Bool} {l1 l2 : List Char}
    (h : ∀ c ∈ l1, p c = true) :
    (l1 ++ l2).dropWhile p = l2.dropWhile p := by
  induction l1 with
  | nil => simp
  | cons c t ih =>
    rw [List.cons_append, List.dropWhile_cons_of_pos (h c (List.mem_cons_self c t)),
      ih fun x hx => h x (List.mem_cons_of_mem c hx)]

theorem takeWhile_not_head {p : Char → Bool} {l : List Char}
    (h : ∀ c, l.head? = some c → p c = false) : l.takeWhile p = [] := by
  cases l with
  | nil => rfl
  | cons c t => exact List.takeWhile_cons_of_neg (by simp [h c rfl])

theorem dropWhile_not_head {p : Char → Bool} {l : List Char}
    (h : ∀ c, l.head? = some c → p c = false) : l.dropWhile p = l := by
  cases l with
  | nil => rfl
  | cons c t => exact List.dropWhile_cons_of_neg (by simp [h c rfl])

theorem parseNumCore_render (negb : Bool) (i : Nat) (frac : List Nat)
    (hfne : frac ≠ []) (hflt : ∀ k ∈ frac, k < 10) (rest : List Char)
    (hrest : ∀ c, rest.head? = some c → isDigitCh c = false) :
    parseNumCore negb (natChars i ++ ('.' :: (frac.map digitCharN ++ rest))) =
      some (⟨negb, i, frac⟩, rest) := by
  have hlead : leadDigits (natChars i ++ ('.' :: (frac.map digitCharN ++ rest))) =
      (natChars i).map digitVal := by
    unfold leadDigits
    rw [takeWhile_append_all (natChars_all_digits i),
      List.takeWhile_cons_of_neg (by decide)]
    simp
  have hafter : afterDigits (natChars i ++ ('.' :: (frac.map digitCharN ++ rest))) =
      '.' :: (frac.map digitCharN ++ rest) := by
    unfold afterDigits
    rw [dropWhile_append_all (natChars_all_digits i),
      List.dropWhile_cons_of_neg (by decide)]
  have hfraclead : leadDigits (frac.map digitCharN ++ rest) = frac := by
    unfold leadDigits
    rw [takeWhile_append_all (fun c hc => by
        obtain ⟨k, _, rfl⟩ := List.mem_map.mp hc
        exact isDigit_digitCharN k),
      takeWhile_not_head hrest, List.append_nil, List.map_map]
    conv_rhs => rw [← List.map_id frac]
    exact List.map_congr_left fun k hk => digitVal_digitCharN (hflt k hk)
  have hfracafter : afterDigits (frac.map digitCharN ++ rest) = rest := by
    unfold afterDigits
    rw [dropWhile_append_all (fun c hc => by
        obtain ⟨k, _, rfl⟩ := List.mem_map.mp hc
        exact isDigit_digitCharN k),
      dropWhile_not_head hrest]
  unfold parseNumCore
  rw [hlead, hafter, if_neg (by simp [natChars_ne_nil i])]
  simp only [List.head?_cons, List.tail_cons, if_pos]
  rw [hfraclead, hfracafter, if_neg hfne, digitsVal_natChars]

theorem parseNum_render (d : DecNum) (hwf : d.wf) (rest : List Char)
    (hrest : ∀ c, rest.head? = some c → isDigitCh c = false) :
    parseNum (decChars d ++ rest) = some (d, rest) := by
  obtain ⟨neg, i, frac⟩ := d
  obtain ⟨hfne, hflt⟩ := hwf
  have hshape : decChars ⟨neg, i, frac⟩ ++ rest =
      (if neg then ['-'] else []) ++
        (natChars i ++ ('.' :: (frac.map digitCharN ++ rest))) := by
    unfold decChars
    simp [List.append_assoc]
  rw [hshape]
  cases neg with
  | true =>
    rw [if_pos rfl]
    unfold parseNum
    rw [List.cons_append, List.head?_cons, if_pos rfl, List.tail_cons]
    exact parseNumCore_render true i frac hfne hflt rest hrest
  | false =>
    rw [if_neg (by simp)]
    unfold parseNum
    rw [List.nil_append]
    have hne : ¬((natChars i ++ ('.' :: (frac.map digitCharN ++ rest))).head? =
        some '-') := by
      obtain ⟨c0, t0, he⟩ := List.exists_cons_of_ne_nil (natChars_ne_nil i)
      have hd := natChars_all_digits i c0 (he ▸ List.mem_cons_self c0 t0)
      rw [he, List.cons_append, List.head?_cons]
      intro hcm
      rw [Option.some.injEq] at hcm
      rw [hcm] at hd
      simp [isDigitCh] at hd
    rw [if_neg hne]
    exact parseNumCore_render false i frac hfne hflt rest hrest

theorem skipSpaces_decChars (d : DecNum) (r : List Char) :
    skipSpaces (decChars d ++ r) = decChars d ++ r := by
  cases hneg : d.neg with
  | true =>
    have hshape : decChars d = '-' :: (natChars d.intPart ++ '.' :: d.frac.map digitCharN) := by
      simp [decChars, hneg]
    rw [hshape, List.cons_append]
    exact List.dropWhile_cons_of_neg (by decide)
  | false =>
    have hshape : decChars d = natChars d.intPart ++ '.' :: d.frac.map digitCharN := by
      simp [decChars, hneg]
    obtain ⟨c0, t0, he⟩ := List.exists_cons_of_ne_nil (natChars_ne_nil d.intPart)
    have hd := natChars_all_digits d.intPart c0 (he ▸ List.mem_cons_self c0 t0)
    rw [hshape, he, List.cons_append, List.cons_append]
    refine List.dropWhile_cons_of_neg ?_
    simp only [decide_eq_true_eq]
    intro hcm
    rw [hcm] at hd
    simp [isDigitCh] at hd

theorem skipSpaces_joinSep (v : List DecNum) (hv : v ≠ []) (r : List Char) :
    skipSpaces (joinSep (v.map decChars) ++ r) = joinSep (v.map decChars) ++ r := by
  cases v with
  | nil => exact absurd rfl hv
  | cons d t =>
    cases t with
    | nil =>
      show skipSpaces (decChars d ++ r) = decChars d ++ r
      exact skipSpaces_decChars d r
    | cons d2 t2 =>
      show skipSpaces ((decChars d ++ ',' :: ' ' :: joinSep ((d2 :: t2).map decChars)) ++ r) =
        (decChars d ++ ',' :: ' ' :: joinSep ((d2 :: t2).map decChars)) ++ r
      rw [List.append_assoc]
      exact skipSpaces_decChars d _

theorem parseElemsAux_space (fuel : Nat) (cs : List Char) :
    parseElemsAux (fuel + 1) (' ' :: cs) = parseElemsAux (fuel + 1) cs := by
  unfold parseElemsAux
  rw [show skipSpaces (' ' :: cs) = skipSpaces cs from
    List.dropWhile_cons_of_pos (by decide)]

theorem parseElemsAux_render (v : List DecNum) (hv : v ≠ [])
    (hwf : ∀ d ∈ v, d.wf) (rest : List Char) :
    ∀ fuel, v.length ≤ fuel →
      parseElemsAux fuel (joinSep (v.map decChars) ++ (']' :: rest)) =
        some (v, rest) := by
  induction v with
  | nil => exact absurd rfl hv
  | cons d t ih =>
    intro fuel hfuel
    cases fuel with
    | zero => simp at hfuel
    | succ fuel =>
      cases t with
      | nil =>
        show parseElemsAux (fuel + 1) (decChars d ++ (']' :: rest)) = some ([d], rest)
        unfold parseElemsAux
        rw [skipSpaces_decChars,
          parseNum_render d (hwf d (List.mem_cons_self d [])) (']' :: rest)
            (fun c hc => by rw [List.head?_cons, Option.some.injEq] at hc; subst hc; decide)]
        simp
      | cons d2 t2 =>
        show parseElemsAux (fuel + 1)
            ((decChars d ++ ',' :: ' ' :: joinSep ((d2 :: t2).map decChars)) ++
              (']' :: rest)) = some (d :: d2 :: t2, rest)
        rw [List.append_assoc, List.cons_append, List.cons_append]
        unfold parseElemsAux
        rw [skipSpaces_decChars,
          parseNum_render d (hwf d (List.mem_cons_self d _))
            (',' :: (' ' :: (joinSep ((d2 :: t2).map decChars) ++ (']' :: rest))))
            (fun c hc => by rw [List.head?_cons, Option.some.injEq] at hc; subst hc; decide)]
        simp only [List.head?_cons, List.tail_cons, if_pos]
        obtain ⟨g, rfl⟩ : ∃ g, fuel = g + 1 := by
          have : t2.length + 2 ≤ fuel + 1 := by simpa using hfuel
          exact ⟨fuel - 1, by omega⟩
        rw [parseElemsAux_space,
          ih (by simp) (fun x hx => hwf x (List.mem_cons_of_mem d hx)) (g + 1)
            (by simp at hfuel ⊢; omega)]

theorem decChars_head (d : DecNum) :
    ∃ c t, decChars d = c :: t ∧ (c = '-' ∨ isDigitCh c = true) := by
  cases hneg : d.neg with
  | true =>
    refine ⟨'-', natChars d.intPart ++ '.' :: d.frac.map digitCharN, ?_, Or.inl rfl⟩
    simp [decChars, hneg]
  | false =>
    obtain ⟨c0, t0, he⟩ := List.exists_cons_of_ne_nil (natChars_ne_nil d.intPart)
    have hd := natChars_all_digits d.intPart c0 (he ▸ List.mem_cons_self c0 t0)
    refine ⟨c0, t0 ++ '.' :: d.frac.map digitCharN, ?_, Or.inr hd⟩
    simp [decChars, hneg, he]

theorem decChars_ne_nil (d : DecNum) : decChars d ≠ [] := by
  obtain ⟨c, t, he, _⟩ := decChars_head d
  simp [he]

theorem joinSep_length (L : List (List Char)) (h : ∀ l ∈ L, l ≠ []) :
    L.length ≤ (joinSep L).length := by
  induction L with
  | nil => simp
  | cons x t ih =>
    cases t with
    | nil =>
      have := h x (List.mem_cons_self x [])
      have : 1 ≤ x.length := List.length_pos.mpr this
      simpa [joinSep] using this
    | cons y t2 =>
      have hx := List.length_pos.mpr (h x (List.mem_cons_self x _))
      have ht := ih fun l hl => h l (List.mem_cons_of_mem x hl)
      show (y :: t2).length + 1 ≤ (x ++ ',' :: ' ' :: joinSep (y :: t2)).length
      rw [List.length_append]
      simp only [List.length_cons] at ht ⊢
      omega

theorem joinSep_cons_shape (d : DecNum) (t : List DecNum) :
    ∃ z, joinSep ((d :: t).map decChars) = decChars d ++ z := by
  cases t with
  | nil => exact ⟨[], by simp [joinSep]⟩
  | cons d2 t2 => exact ⟨',' :: ' ' :: joinSep ((d2 :: t2).map decChars), rfl⟩

theorem parseVec_render (v : List DecNum) (hwf : ∀ d ∈ v, d.wf) :
    parseVec (vecChars v) = some v := by
  cases v with
  | nil => rfl
  | cons d t =>
    unfold parseVec vecChars
    simp only [List.head?_cons, List.tail_cons, List.length_cons]
    rw [if_pos trivial]
    simp only [skipSpaces_joinSep (d :: t) (by simp) [']']]
    obtain ⟨z, hz⟩ := joinSep_cons_shape d t
    obtain ⟨c, t0, he, hc⟩ := decChars_head d
    have hhead : (joinSep ((d :: t).map decChars) ++ [']']).head? = some c := by
      rw [hz, he, List.cons_append, List.cons_append, List.head?_cons]
    rw [if_neg (by
      rw [hhead]
      intro hcm
      rw [Option.some.injEq] at hcm
      subst hcm
      rcases hc with h1 | h1
      · exact absurd h1 (by decide)
      · exact absurd h1 (by decide))]
    rw [parseElemsAux_render (d :: t) (by simp) hwf []
      ((joinSep ((d :: t).map decChars) ++ [']']).length + 1 + 1) (by
        have hj := joinSep_length ((d :: t).map decChars) (by
          intro l hl
          obtain ⟨x, _, rfl⟩ := List.mem_map.mp hl
          exact decChars_ne_nil x)
        rw [List.length_append]
        simp only [List.length_map] at hj
        simp only [List.length_cons, List.length_nil] at hj ⊢
        omega)]
    rfl

theorem joinSep_mem {c : Char} : ∀ {L : List (List Char)}, c ∈ joinSep L →
    (∃ l ∈ L, c ∈ l) ∨ c = ',' ∨ c = ' '
  | [], h => by simp [joinSep] at h
  | [x], h => by
    rw [show joinSep [x] = x from rfl] at h
    exact Or.inl ⟨x, List.mem_cons_self x [], h⟩
  | x :: y :: t, h => by
    rw [show joinSep (x :: y :: t) = x ++ ',' :: ' ' :: joinSep (y :: t) from rfl] at h
    rcases List.mem_append.mp h with h1 | h1
    · exact Or.inl ⟨x, List.mem_cons_self x _, h1⟩
    · rcases List.mem_cons.mp h1 with h2 | h2
      · exact Or.inr (Or.inl h2)
      · rcases List.mem_cons.mp h2 with h3 | h3
        · exact Or.inr (Or.inr h3)
        · rcases joinSep_mem h3 with ⟨l, hl, hcl⟩ | h4
          · exact Or.inl ⟨l, List.mem_cons_of_mem x hl, hcl⟩
          · exact Or.inr h4

theorem decChars_mem {c : Char} {d : DecNum} (h : c ∈ decChars d) :
    isDigitCh c = true ∨ c = '-' ∨ c = '.' := by
  unfold decChars at h
  rcases List.mem_append.mp h with h1 | h1
  · rcases List.mem_append.mp h1 with h2 | h2
    · cases hneg : d.neg with
      | true =>
        rw [hneg] at h2
        simp at h2
        exact Or.inr (Or.inl h2)
      | false =>
        rw [hneg] at h2
        simp at h2
    · exact Or.inl (natChars_all_digits d.intPart c h2)
  · rcases List.mem_cons.mp h1 with h2 | h2
    · exact Or.inr (Or.inr h2)
    · obtain ⟨k, _, rfl⟩ := List.mem_map.mp h2
      exact Or.inl (isDigit_digitCharN k)

theorem vecChars_mem {c : Char} {v : List DecNum} (h : c ∈ vecChars v) :
    isDigitCh c = true ∨ c ∈ ['[', ']', ',', ' ', '-', '.'] := by
  unfold vecChars at h
  rcases List.mem_cons.mp h with h1 | h1
  · subst h1
    exact Or.inr (by simp)
  · rcases List.mem_append.mp h1 with h2 | h2
    · rcases joinSep_mem h2 with ⟨l, hl, hcl⟩ | h3
      · obtain ⟨x, _, rfl⟩ := List.mem_map.mp hl
        rcases decChars_mem hcl with h4 | h4 | h4
        · exact Or.inl h4
        · exact Or.inr (by simp [h4])
        · exact Or.inr (by simp [h4])
      · exact Or.inr (by rcases h3 with h4 | h4 <;> simp [h4])
    · simp at h2
      exact Or.inr (by simp [h2])

theorem vecChars_no_quote {v : List DecNum} : quoteChar ∉ vecChars v := by
  intro h
  rcases vecChars_mem h with h1 | h1
  · exact absurd h1 (by decide)
  · exact absurd h1 (by decide)

theorem vecChars_no_newline {v : List DecNum} : '\n' ∉ vecChars v := by
  intro h
  rcases vecChars_mem h with h1 | h1
  · exact absurd h1 (by decide)
  · exact absurd h1 (by decide)

theorem leadDigits_natChars (n : Nat) (rest : List Char)
    (hrest : ∀ c, rest.head? = some c → isDigitCh c = false) :
    leadDigits (natChars n ++ rest) = (natChars n).map digitVal ∧
      afterDigits (natChars n ++ rest) = rest := by
  constructor
  · unfold leadDigits
    rw [takeWhile_append_all (natChars_all_digits n), takeWhile_not_head hrest]
    simp
  · unfold afterDigits
    rw [dropWhile_append_all (natChars_all_digits n), dropWhile_not_head hrest]

theorem natChars_head_ne (n : Nat) (rest : List Char) (c2 : Char)
    (hc2 : isDigitCh c2 = false) :
    ¬((natChars n ++ rest).head? = some c2) := by
  obtain ⟨c0, t0, he⟩ := List.exists_cons_of_ne_nil (natChars_ne_nil n)
  have hd := natChars_all_digits n c0 (he ▸ List.mem_cons_self c0 t0)
  rw [he, List.cons_append, List.head?_cons]
  intro hcm
  rw [Option.some.injEq] at hcm
  rw [hcm] at hd
  rw [hd] at hc2
  exact Bool.noConfusion hc2

theorem parseIdNum_render (z : Int) (rest : List Char)
    (hrest : ∀ c, rest.head? = some c → isDigitCh c = false) :
    parseIdNum (intChars z ++ rest) = some (z, rest) := by
  obtain ⟨hlead, hafter⟩ := leadDigits_natChars z.natAbs rest hrest
  by_cases hz : z < 0
  · have hshape : intChars z ++ rest = '-' :: (natChars z.natAbs ++ rest) := by
      unfold intChars
      rw [if_pos hz, List.cons_append]
    unfold parseIdNum
    rw [hshape, List.head?_cons, if_pos rfl, List.tail_cons, hlead, hafter,
      if_neg (by simp [natChars_ne_nil z.natAbs]), digitsVal_natChars]
    congr 1
    rw [Prod.mk.injEq]
    exact ⟨by omega, rfl⟩
  · have hshape : intChars z ++ rest = natChars z.natAbs ++ rest := by
      unfold intChars
      rw [if_neg hz]
    unfold parseIdNum
    rw [hshape, if_neg (natChars_head_ne z.natAbs rest '-' (by decide)), hlead, hafter,
      if_neg (by simp [natChars_ne_nil z.natAbs]), digitsVal_natChars]
    congr 1
    rw [Prod.mk.injEq]
    exact ⟨by omega, rfl⟩

theorem parseField_csvField (text rest : List Char) (hq : quoteChar ∉ text)
    (hn : '\n' ∉ text) :
    parseField (csvField text ++ '\n' :: rest) = (text, '\n' :: rest) := by
  by_cases hc : ',' ∈ text
  · have hshape : csvField text ++ '\n' :: rest =
        quoteChar :: (text ++ (quoteChar :: '\n' :: rest)) := by
      unfold csvField
      rw [if_pos hc, List.cons_append, List.append_assoc, List.singleton_append]
    unfold parseField
    rw [hshape, List.head?_cons, if_pos rfl, List.tail_cons,
      takeWhile_append_all (fun c hcm => by
        simp only [decide_eq_true_eq]
        intro hceq
        exact hq (hceq ▸ hcm)),
      List.takeWhile_cons_of_neg (by simp),
      dropWhile_append_all (fun c hcm => by
        simp only [decide_eq_true_eq]
        intro hceq
        exact hq (hceq ▸ hcm)),
      List.dropWhile_cons_of_neg (by simp)]
    simp
  · have hshape : csvField text ++ '\n' :: rest = text ++ '\n' :: rest := by
      unfold csvField
      rw [if_neg hc]
    have hhead : ¬((text ++ '\n' :: rest).head? = some quoteChar) := by
      cases text with
      | nil =>
        rw [List.nil_append, List.head?_cons]
        intro hcm
        rw [Option.some.injEq] at hcm
        exact absurd hcm (by decide)
      | cons c0 t0 =>
        rw [List.cons_append, List.head?_cons]
        intro hcm
        rw [Option.some.injEq] at hcm
        exact hq (hcm ▸ List.mem_cons_self c0 t0)
    unfold parseField
    rw [hshape, if_neg hhead,
      takeWhile_append_all (fun c hcm => by
        simp only [decide_eq_true_eq]
        exact ⟨fun hceq => hc (hceq ▸ hcm), fun hceq => hn (hceq ▸ hcm)⟩),
      List.takeWhile_cons_of_neg (by simp),
      dropWhile_append_all (fun c hcm => by
        simp only [decide_eq_true_eq]
        exact ⟨fun hceq => hc (hceq ▸ hcm), fun hceq => hn (hceq ▸ hcm)⟩),
      List.dropWhile_cons_of_neg (by simp)]
    simp

theorem parseCsvRow_render (z : Int) (v : List DecNum) (rest : List Char) :
    parseCsvRow (csvRow z (vecChars v) ++ rest) = some ((z, vecChars v), rest) := by
  have hshape : csvRow z (vecChars v) ++ rest =
      intChars z ++ (',' :: (csvField (vecChars v) ++ ('\n' :: rest))) := by
    unfold csvRow
    simp [List.append_assoc]
  unfold parseCsvRow
  rw [hshape, parseIdNum_render z _ (fun c hcm => by
    rw [List.head?_cons, Option.some.injEq] at hcm
    subst hcm
    rfl)]
  simp only [List.head?_cons, List.tail_cons, if_pos,
    parseField_csvField (vecChars v) rest vecChars_no_quote vecChars_no_newline]

theorem intChars_ne_nil (z : Int) : intChars z ≠ [] := by
  unfold intChars
  by_cases hz : z < 0
  · simp [hz]
  · simp [hz, natChars_ne_nil]

theorem csvRow_ne_nil (z : Int) (text : List Char) : csvRow z text ≠ [] := by
  unfold csvRow
  intro h
  rw [List.append_eq_nil] at h
  exact intChars_ne_nil z h.1

theorem parseCsvRows_render (table : List (Int × List DecNum)) :
    ∀ fuel, table.length ≤ fuel →
      parseCsvRows fuel (table.flatMap fun r => csvRow r.1 (vecChars r.2)) =
        some (table.map fun r => (r.1, vecChars r.2)) := by
  induction table with
  | nil =>
    intro fuel _
    cases fuel <;> rfl
  | cons r t ih =>
    intro fuel hfuel
    cases fuel with
    | zero => simp at hfuel
    | succ fuel =>
      rw [List.flatMap_cons]
      unfold parseCsvRows
      rw [if_neg (by
        intro h
        rw [List.append_eq_nil] at h
        exact csvRow_ne_nil r.1 (vecChars r.2) h.1)]
      rw [parseCsvRow_render r.1 r.2 (t.flatMap fun r => csvRow r.1 (vecChars r.2))]
      show (match parseCsvRows fuel (t.flatMap fun r => csvRow r.1 (vecChars r.2)) with
        | some rs => some ((r.1, vecChars r.2) :: rs)
        | none => none) = some (List.map (fun r => (r.1, vecChars r.2)) (r :: t))
      rw [ih fuel (by simp at hfuel; omega)]
      rfl

theorem length_le_length_flatMap (table : List (Int × List DecNum)) :
    table.length ≤ (table.flatMap fun r => csvRow r.1 (vecChars r.2)).length := by
  induction table with
  | nil => simp
  | cons r t ih =>
    rw [List.flatMap_cons, List.length_append, List.length_cons]
    have h1 : 1 ≤ (csvRow r.1 (vecChars r.2)).length :=
      List.length_pos.mpr (csvRow_ne_nil r.1 (vecChars r.2))
    omega

theorem readCsv_render (table : List (Int × List DecNum)) :
    readCsv (csvFileChars table) = some (table.map fun r => (r.1, vecChars r.2)) := by
  unfold readCsv csvFileChars
  rw [List.take_left, List.drop_left, if_pos rfl]
  refine parseCsvRows_render table _ ?_
  rw [List.length_append]
  have := length_le_length_flatMap table
  omega

theorem decodeFeatures_map (table : List (Int × List DecNum))
    (hwf : ∀ r ∈ table, ∀ d ∈ r.2, d.wf) :
    decodeFeatures (table.map fun r => (r.1, vecChars r.2)) = some table := by
  induction table with
  | nil => rfl
  | cons r t ih =>
    rw [List.map_cons]
    unfold decodeFeatures
    rw [parseVec_render r.2 (hwf r (List.mem_cons_self r t)),
      ih fun x hx => hwf x (List.mem_cons_of_mem r hx)]

theorem df_target_sorted {α : Type} [LinearOrder α] (f : List ℚ → α)
    (emb : List EmbRow) (watched : List Int) :
    List.Pairwise (fun a b => b.2 ≤ a.2) (df_target_movieIds f emb watched) := by
  unfold df_target_movieIds
  rw [List.pairwise_map]
  refine List.Pairwise.sublist (List.take_sublist _ _) ?_
  have hs := @List.sorted_mergeSort _ (simDescLe (α := α))
    (fun a b c h1 h2 => ?_) (fun a b => ?_)
    ((assignSimValue f emb).filter fun r => decide (r.id ∉ watched))
  · exact hs.imp fun h => of_decide_eq_true h
  · exact decide_eq_true (le_trans (of_decide_eq_true h2) (of_decide_eq_true h1))
  · simp only [simDescLe, Bool.or_eq_true, decide_eq_true_eq]
    exact le_total b.sim_value a.sim_value

theorem merge_pairwise {α : Type} [LinearOrder α] (left : List (Int × α))
    (movies : List Movie)
    (h : List.Pairwise (fun a b => b.2 ≤ a.2) left) :
    List.Pairwise (fun a b : RecRow α => b.sim_value ≤ a.sim_value)
      (mergeWithMovies left movies) := by
  unfold mergeWithMovies
  rw [List.flatMap_def, List.pairwise_flatten]
  constructor
  · intro blk hblk
    obtain ⟨l, hl, rfl⟩ := List.mem_map.mp hblk
    rw [List.pairwise_map]
    exact List.pairwise_of_forall_mem_list fun a _ b _ => le_refl l.2
  · rw [List.pairwise_map]
    refine h.imp_of_mem ?_
    intro a b _ _ hab x hx y hy
    obtain ⟨ma, _, rfl⟩ := List.mem_map.mp hx
    obtain ⟨mb, _, rfl⟩ := List.mem_map.mp hy
    exact hab

theorem filter_key_len_le_one (movies : List Movie)
    (hnodup : (movies.map Movie.movieId).Nodup) (k : Int) :
    (movies.filter fun m => decide (m.movieId = k)).length ≤ 1 := by
  induction movies with
  | nil => simp
  | cons m ms ih =>
    rw [List.map_cons, List.nodup_cons] at hnodup
    by_cases hk : m.movieId = k
    · rw [List.filter_cons_of_pos (by simpa using hk)]
      have hnil : ms.filter (fun m => decide (m.movieId = k)) = [] := by
        rw [List.filter_eq_nil_iff]
        intro x hx hxk
        exact hnodup.1 (hk ▸ (of_decide_eq_true hxk) ▸ List.mem_map_of_mem Movie.movieId hx)
      simp [hnil]
    · rw [List.filter_cons_of_neg (by simpa using hk)]
      exact ih hnodup.2

/-! ### Claim theorems -/

/-- C1: every movie id appearing in the recommended list
df_target_movieIds is absent from the watched set built from the
ratings table consulted by the notebook for the target user. -/
theorem recommended_excludes_watched {α : Type} [LinearOrder α] (f : List ℚ → α)
    (emb : List EmbRow) (df_rating : List Rating) (mid : Int)
    (h : mid ∈ (df_target_movieIds f emb
      (watched_ids df_rating target_user_id)).map Prod.fst) :
    mid ∉ watched_ids df_rating target_user_id := by
  obtain ⟨p, hp, hpm⟩ := List.mem_map.mp h
  unfold df_target_movieIds at hp
  obtain ⟨r, hr, rfl⟩ := List.mem_map.mp hp
  have hr2 := List.mem_mergeSort.mp ((List.take_sublist _ _).mem hr)
  have hdec := (List.mem_filter.mp hr2).2
  have hnot : r.id ∉ watched_ids df_rating target_user_id := of_decide_eq_true hdec
  simpa [← hpm] using hnot

theorem recommended_excludes_watched_witness :
    (5 : Int) ∈ (df_target_movieIds (fun _ => (0 : ℚ)) [⟨5, []⟩]
      (watched_ids [⟨1, 3, 4, 0⟩] target_user_id)).map Prod.fst ∧
    (5 : Int) ∉ watched_ids [⟨1, 3, 4, 0⟩] target_user_id :=
  ⟨by decide,
   recommended_excludes_watched (fun _ => (0 : ℚ)) [⟨5, []⟩] [⟨1, 3, 4, 0⟩] 5 (by decide)⟩

/-- C2: the recommended list is sorted by non-increasing sim_value, and
so is the displayed table after the metadata join, which preserves the
left table's row order. -/
theorem recommendations_sorted_desc {α : Type} [LinearOrder α] (f : List ℚ → α)
    (emb : List EmbRow) (watched : List Int) (movies : List Movie) :
    List.Pairwise (fun a b => b.2 ≤ a.2) (df_target_movieIds f emb watched) ∧
    List.Pairwise (fun a b : RecRow α => b.sim_value ≤ a.sim_value)
      (mergeWithMovies (df_target_movieIds f emb watched) movies) :=
  ⟨df_target_sorted f emb watched,
   merge_pairwise _ movies (df_target_sorted f emb watched)⟩

/-- C3: when at least ten items of the embedding table are unwatched the
recommended list has exactly ten rows, and it never has more than ten. -/
theorem recommendations_top_ten {α : Type} [LinearOrder α] (f : List ℚ → α)
    (emb : List EmbRow) (watched : List Int) :
    (10 ≤ (emb.filter fun r => decide (r.id ∉ watched)).length →
      (df_target_movieIds f emb watched).length = 10) ∧
    (df_target_movieIds f emb watched).length ≤ 10 := by
  have hlen : (df_target_movieIds f emb watched).length =
      min 10 (emb.filter fun r => decide (r.id ∉ watched)).length := by
    unfold df_target_movieIds
    rw [List.length_map, List.length_take, List.length_mergeSort]
    unfold assignSimValue
    rw [List.filter_map, List.length_map]
    rfl
  constructor
  · intro h10
    omega
  · omega

theorem recommendations_top_ten_witness :
    10 ≤ (([⟨1, []⟩, ⟨2, []⟩, ⟨3, []⟩, ⟨4, []⟩, ⟨5, []⟩, ⟨6, []⟩, ⟨7, []⟩,
        ⟨8, []⟩, ⟨9, []⟩, ⟨10, []⟩] : List EmbRow).filter fun r =>
      decide (r.id ∉ ([] : List Int))).length ∧
    (df_target_movieIds (fun _ => (0 : ℚ))
      [⟨1, []⟩, ⟨2, []⟩, ⟨3, []⟩, ⟨4, []⟩, ⟨5, []⟩, ⟨6, []⟩, ⟨7, []⟩,
        ⟨8, []⟩, ⟨9, []⟩, ⟨10, []⟩] ([] : List Int)).length = 10 :=
  ⟨by decide,
   (recommendations_top_ten (fun _ => (0 : ℚ))
     [⟨1, []⟩, ⟨2, []⟩, ⟨3, []⟩, ⟨4, []⟩, ⟨5, []⟩, ⟨6, []⟩, ⟨7, []⟩,
       ⟨8, []⟩, ⟨9, []⟩, ⟨10, []⟩] ([] : List Int)).1 (by decide)⟩

/-- C4: for non-zero vectors the computed sim_value — one minus the
cosine distance — equals the inner product divided by the product of
the Euclidean norms. -/
theorem sim_value_is_cosine (u v : List ℝ) (hu : euclidNorm u ≠ 0)
    (hv : euclidNorm v ≠ 0) :
    simValueR u v = dotProd u v / (euclidNorm u * euclidNorm v) := by
  unfold simValueR cosineDist
  ring

theorem sim_value_is_cosine_witness : euclidNorm [1] ≠ 0 ∧
    simValueR [1] [1] = dotProd [1] [1] / (euclidNorm [1] * euclidNorm [1]) := by
  have h : euclidNorm [1] ≠ 0 := by
    unfold euclidNorm dotProd
    norm_num
  exact ⟨h, sim_value_is_cosine [1] [1] h h⟩

/-- C5: writing an embedding table to CSV with the vector rendered as
JSON text, reading the file back and mapping the JSON decode over the
features column recovers the original table exactly. -/
theorem embedding_export_roundtrip (table : List (Int × List DecNum))
    (hwf : ∀ r ∈ table, ∀ d ∈ r.2, d.wf) :
    readEmbeddingCsv (csvFileChars table) = some table := by
  unfold readEmbeddingCsv
  rw [readCsv_render]
  exact decodeFeatures_map table hwf

theorem embedding_export_roundtrip_witness :
    (∀ r ∈ ([(1, [⟨false, 1, [5]⟩])] : List (Int × List DecNum)),
      ∀ d ∈ r.2, d.wf) ∧
    readEmbeddingCsv (csvFileChars [(1, [⟨false, 1, [5]⟩])]) =
      some [(1, [⟨false, 1, [5]⟩])] :=
  ⟨by decide, embedding_export_roundtrip [(1, [⟨false, 1, [5]⟩])] (by decide)⟩

/-- C6: the notebook configures coldStartStrategy = "drop", so transform
produces no prediction row for a user or item without a trained factor,
and every surviving row carries an actual prediction value. -/
theorem cold_start_drop (m : ALSModel) (rows : List (Int × Int)) (u i : Int)
    (hunseen : lookupFactor m.userFactors u = none ∨
      lookupFactor m.itemFactors i = none) :
    als.coldStartStrategy = "drop" ∧
    (∀ p ∈ transform als.coldStartStrategy m rows, ¬(p.1 = u ∧ p.2.1 = i)) ∧
    (∀ p ∈ transform als.coldStartStrategy m rows, ∃ q, p.2.2 = some q) := by
  have hcs : als.coldStartStrategy = "drop" := rfl
  have htr : transform als.coldStartStrategy m rows = rows.filterMap fun p =>
      match lookupFactor m.userFactors p.1, lookupFactor m.itemFactors p.2 with
      | some fu, some fi => some (p.1, p.2, some (dotQ fu fi))
      | _, _ => none := by
    rw [hcs]
    unfold transform
    rw [if_pos rfl]
  refine ⟨hcs, ?_, ?_⟩
  · intro p hp hcontra
    rw [htr] at hp
    obtain ⟨q, hqmem, hq⟩ := List.mem_filterMap.mp hp
    rcases h1 : lookupFactor m.userFactors q.1 with _ | fu <;>
      rcases h2 : lookupFactor m.itemFactors q.2 with _ | fi <;>
      rw [h1, h2] at hq
    · exact Option.noConfusion hq
    · exact Option.noConfusion hq
    · exact Option.noConfusion hq
    · have hpeq := Option.some.inj hq
      rcases hunseen with hn | hn
      · have hqu : q.1 = u := by
          rw [← hpeq] at hcontra
          exact hcontra.1
        rw [hqu, hn] at h1
        exact Option.noConfusion h1
      · have hqi : q.2 = i := by
          rw [← hpeq] at hcontra
          exact hcontra.2
        rw [hqi, hn] at h2
        exact Option.noConfusion h2
  · intro p hp
    rw [htr] at hp
    obtain ⟨q, hqmem, hq⟩ := List.mem_filterMap.mp hp
    rcases h1 : lookupFactor m.userFactors q.1 with _ | fu <;>
      rcases h2 : lookupFactor m.itemFactors q.2 with _ | fi <;>
      rw [h1, h2] at hq
    · exact Option.noConfusion hq
    · exact Option.noConfusion hq
    · exact Option.noConfusion hq
    · have hpeq := Option.some.inj hq
      exact ⟨dotQ fu fi, by rw [← hpeq]⟩

theorem cold_start_drop_witness :
    (lookupFactor [((1 : Int), [(1 : ℚ)])] 5 = none ∨
      lookupFactor [((2 : Int), [(1 : ℚ)])] 2 = none) ∧
    ∀ p ∈ transform als.coldStartStrategy
      ⟨[((1 : Int), [(1 : ℚ)])], [((2 : Int), [(1 : ℚ)])]⟩ [(5, 2)],
      ¬(p.1 = 5 ∧ p.2.1 = 2) :=
  ⟨Or.inl (by decide),
   (cold_start_drop ⟨[((1 : Int), [(1 : ℚ)])], [((2 : Int), [(1 : ℚ)])]⟩
     [(5, 2)] 5 2 (Or.inl (by decide))).2.1⟩

/-- C7: the notebook leaves rank at its default of 10, and under the
library guarantee that factor vectors have rank length, every user and
item factor vector has length 10, so cosine similarity always compares
vectors of equal length. -/
theorem factor_length_matches_rank (m : ALSModel)
    (h : factorsWellFormed m als.rank) :
    als.rank = 10 ∧
    (∀ p ∈ m.userFactors, p.2.length = 10) ∧
    (∀ p ∈ m.itemFactors, p.2.length = 10) ∧
    (∀ pu ∈ m.userFactors, ∀ pv ∈ m.itemFactors, pu.2.length = pv.2.length) := by
  have hrank : als.rank = 10 := rfl
  refine ⟨hrank, fun p hp => hrank ▸ h.1 p hp, fun p hp => hrank ▸ h.2 p hp, ?_⟩
  intro pu hpu pv hpv
  rw [h.1 pu hpu, h.2 pv hpv]

theorem factor_length_matches_rank_witness :
    factorsWellFormed ⟨[((1 : Int), List.replicate 10 (0 : ℚ))], []⟩ als.rank ∧
    als.rank = 10 :=
  ⟨by decide,
   (factor_length_matches_rank ⟨[((1 : Int), List.replicate 10 (0 : ℚ))], []⟩
     (by decide)).1⟩

/-- C8: the target-user embedding lookup fails (models the IndexError of
iloc[0, 1] on an empty selection) exactly when the id is absent, and
when the id occurs it returns the features of the first matching row. -/
theorem user_embedding_lookup_spec (df : List EmbRow) (uid : Int) :
    (user_embedding df uid = none ↔ uid ∉ df.map EmbRow.id) ∧
    (uid ∈ df.map EmbRow.id →
      ∃ r, (df.filter fun q => decide (q.id = uid)).head? = some r ∧
        user_embedding df uid = some r.features) := by
  constructor
  · unfold user_embedding
    rw [Option.map_eq_none', List.head?_eq_none_iff, List.filter_eq_nil_iff]
    constructor
    · intro h hmem
      obtain ⟨r, hr, rfl⟩ := List.mem_map.mp hmem
      exact h r hr (by simp)
    · intro h r hr hdec
      refine h ?_
      rw [← of_decide_eq_true hdec]
      exact List.mem_map_of_mem EmbRow.id hr
  · intro hmem
    obtain ⟨r, hr, rfl⟩ := List.mem_map.mp hmem
    have hne : df.filter (fun q => decide (q.id = r.id)) ≠ [] := by
      intro hnil
      rw [List.filter_eq_nil_iff] at hnil
      exact hnil r hr (by simp)
    obtain ⟨q, hq⟩ := Option.ne_none_iff_exists'.mp
      (fun h => hne (List.head?_eq_none_iff.mp h))
    exact ⟨q, hq, by unfold user_embedding; rw [hq]; rfl⟩

theorem user_embedding_lookup_spec_witness :
    (1 : Int) ∈ ([⟨1, [2]⟩] : List EmbRow).map EmbRow.id ∧
    ∃ r, (([⟨1, [2]⟩] : List EmbRow).filter fun q =>
        decide (q.id = (1 : Int))).head? = some r ∧
      user_embedding [⟨1, [2]⟩] 1 = some r.features :=
  ⟨by decide, (user_embedding_lookup_spec [⟨1, [2]⟩] 1).2 (by decide)⟩

/-- C9: the metadata merge is an inner join containing exactly the
matched rows: every output row comes from a left row and a matching
metadata row, every left row with a matching metadata row contributes
its joined row to the output, a recommended id with no metadata match
is silently omitted, and with unique metadata ids the displayed table
is no longer than the recommended list. -/
theorem merge_inner_join_spec {α : Type} (left : List (Int × α))
    (movies : List Movie) :
    (∀ row ∈ mergeWithMovies left movies,
      ∃ l ∈ left, ∃ m ∈ movies, m.movieId = l.1 ∧
        row = ⟨m.movieId, m.title, m.genres, l.2⟩) ∧
    (∀ l ∈ left, ∀ m ∈ movies, m.movieId = l.1 →
      (⟨m.movieId, m.title, m.genres, l.2⟩ : RecRow α) ∈ mergeWithMovies left movies) ∧
    (∀ l ∈ left, (∀ m ∈ movies, m.movieId ≠ l.1) →
      ∀ row ∈ mergeWithMovies left movies, row.movieId ≠ l.1) ∧
    ((movies.map Movie.movieId).Nodup →
      (mergeWithMovies left movies).length ≤ left.length) := by
  have hmem : ∀ row ∈ mergeWithMovies left movies,
      ∃ l ∈ left, ∃ m ∈ movies, m.movieId = l.1 ∧
        row = ⟨m.movieId, m.title, m.genres, l.2⟩ := by
    intro row hrow
    obtain ⟨l, hl, hrow2⟩ := List.mem_flatMap.mp hrow
    obtain ⟨m, hm, rfl⟩ := List.mem_map.mp hrow2
    have hmf := List.mem_filter.mp hm
    exact ⟨l, hl, m, hmf.1, of_decide_eq_true hmf.2, rfl⟩
  refine ⟨hmem, ?_, ?_, ?_⟩
  · intro l hl m hm hmatch
    refine List.mem_flatMap.mpr ⟨l, hl, List.mem_map.mpr ⟨m, ?_, rfl⟩⟩
    exact List.mem_filter.mpr ⟨hm, decide_eq_true hmatch⟩
  · intro l _ hnone row hrow heq
    obtain ⟨l2, _, m, hm, hmatch, rfl⟩ := hmem row hrow
    exact hnone m hm (by simpa using heq)
  · intro hnodup
    unfold mergeWithMovies
    rw [List.length_flatMap]
    refine le_trans (List.sum_le_sum (f := _) (g := fun _ => 1) fun l _ => ?_) (by simp)
    simpa using filter_key_len_le_one movies hnodup l.1

theorem merge_inner_join_spec_witness :
    (⟨5, "A", "g", (1 : ℚ)⟩ : RecRow ℚ) ∈
      mergeWithMovies [((5 : Int), (1 : ℚ)), ((6 : Int), (2 : ℚ))] [⟨5, "A", "g"⟩] ∧
    (∀ row ∈ mergeWithMovies [((5 : Int), (1 : ℚ)), ((6 : Int), (2 : ℚ))]
      [⟨5, "A", "g"⟩], row.movieId ≠ (6 : Int)) ∧
    (mergeWithMovies [((5 : Int), (1 : ℚ)), ((6 : Int), (2 : ℚ))]
      [⟨5, "A", "g"⟩]).length ≤
      ([((5 : Int), (1 : ℚ)), ((6 : Int), (2 : ℚ))] : List (Int × ℚ)).length :=
  ⟨(merge_inner_join_spec [((5 : Int), (1 : ℚ)), ((6 : Int), (2 : ℚ))]
      [⟨5, "A", "g"⟩]).2.1 ((5 : Int), (1 : ℚ)) (by decide) ⟨5, "A", "g"⟩
      (by decide) (by decide),
   (merge_inner_join_spec [((5 : Int), (1 : ℚ)), ((6 : Int), (2 : ℚ))]
      [⟨5, "A", "g"⟩]).2.2.1 ((6 : Int), (2 : ℚ)) (by decide) (by decide),
   (merge_inner_join_spec [((5 : Int), (1 : ℚ)), ((6 : Int), (2 : ℚ))]
      [⟨5, "A", "g"⟩]).2.2.2 (by decide)⟩

/-- C10: assigning the sim_value column preserves the id and features of
every row, and every row of the recommended list is derived from a row
of the (unchanged) assigned table. -/
theorem sim_assignment_frame_preserving {α : Type} [LinearOrder α]
    (f : List ℚ → α) (emb : List EmbRow) (watched : List Int) :
    ((assignSimValue f emb).map SimRow.id = emb.map EmbRow.id) ∧
    ((assignSimValue f emb).map SimRow.features = emb.map EmbRow.features) ∧
    (∀ p ∈ df_target_movieIds f emb watched,
      ∃ r ∈ assignSimValue f emb, p = (r.id, r.sim_value)) := by
  refine ⟨?_, ?_, ?_⟩
  · unfold assignSimValue
    rw [List.map_map]
    rfl
  · unfold assignSimValue
    rw [List.map_map]
    rfl
  · intro p hp
    unfold df_target_movieIds at hp
    obtain ⟨r, hr, rfl⟩ := List.mem_map.mp hp
    have hr2 := List.mem_mergeSort.mp ((List.take_sublist _ _).mem hr)
    exact ⟨r, (List.mem_filter.mp hr2).1, rfl⟩

theorem sim_assignment_frame_preserving_witness :
    ((5 : Int), (0 : ℚ)) ∈ df_target_movieIds (fun _ => (0 : ℚ)) [⟨5, []⟩] [] ∧
    ∃ r ∈ assignSimValue (fun _ => (0 : ℚ)) ([⟨5, []⟩] : List EmbRow),
      ((5 : Int), (0 : ℚ)) = (r.id, r.sim_value) :=
  ⟨by decide,
   (sim_assignment_frame_preserving (fun _ => (0 : ℚ)) [⟨5, []⟩] []).2.2
     ((5 : Int), (0 : ℚ)) (by decide)⟩

end RecSys
